import Mathlib

/-!
Verification of a small library of divide-and-conquer algorithms:
mergesort, Karatsuba big-integer multiplication, Strassen matrix
multiplication, and closest pair of points.  Each Python function is
shallowly embedded as an executable Lean definition; recursions whose
termination depends on value-level facts (or which do not terminate on
some inputs, such as mergesort on the empty list) are embedded with an
explicit fuel parameter that is always instantiated with a sufficient
bound by the public wrapper.
-/

namespace Mergesort

/-- The merge loop of mergesort.py (and, with a different comparison, of
closestpoints.py).  `le` is the comparison used on the heads; the Python
loop takes the head of `a` when `a[0] <= b[0]`, so ties prefer the left
list.  The fuel argument decreases by one each time an element is
consumed, hence `a.length + b.length` fuel always suffices; the fuel-0
branch is unreachable for that choice. -/
def mergeByFuel {α : Type} (le : α → α → Bool) : ℕ → List α → List α → List α
  | 0, a, b => a ++ b
  | _ + 1, [], b => b
  | _ + 1, x :: xs, [] => x :: xs
  | fuel + 1, x :: xs, y :: ys =>
      if le x y then x :: mergeByFuel le fuel xs (y :: ys)
      else y :: mergeByFuel le fuel (x :: xs) ys

/-- `merge` from mergesort.py: merges two sorted lists of comparable
elements, taking the left head on ties. -/
def merge {α : Type} [LinearOrder α] (a b : List α) : List α :=
  mergeByFuel (fun x y => decide (x ≤ y)) (a.length + b.length) a b

/-- `mergesort` from mergesort.py, with fuel.  The Python code returns
`l` when `len(l) == 1`, otherwise splits at `len(l) // 2` and recurses
into both halves.  On the empty list the recursion calls itself with an
identical empty argument, so every fuel bound is exhausted: the fuel-0
result `none` models non-termination. -/
def mergesortFuel {α : Type} [LinearOrder α] : ℕ → List α → Option (List α)
  | 0, _ => none
  | fuel + 1, l =>
      if l.length = 1 then some l
      else
        match mergesortFuel fuel (l.take (l.length / 2)),
              mergesortFuel fuel (l.drop (l.length / 2)) with
        | some a, some b => some (merge a b)
        | _, _ => none

/-- Public mergesort: `l.length` fuel suffices for every non-empty list. -/
def mergesort {α : Type} [LinearOrder α] (l : List α) : Option (List α) :=
  mergesortFuel l.length l

theorem mergeByFuel_perm {α : Type} (le : α → α → Bool) :
    ∀ (fuel : ℕ) (a b : List α), List.Perm (mergeByFuel le fuel a b) (a ++ b) := by
  intro fuel
  induction fuel with
  | zero => intro a b; exact List.Perm.refl _
  | succ n ih =>
      intro a b
      match a, b with
      | [], b => simp [mergeByFuel]
      | x :: xs, [] => simp [mergeByFuel]
      | x :: xs, y :: ys =>
          simp only [mergeByFuel]
          by_cases h : le x y = true
          · simp only [h, if_true]
            exact (ih xs (y :: ys)).cons x
          · simp only [h, if_false]
            refine ((ih (x :: xs) ys).cons y).trans ?_
            exact (List.perm_middle).symm

example : merge [1, 3, 5] [2, 4, 6] = [1, 2, 3, 4, 5, 6] := by decide
example : mergesort [4, 1, 2, 5, 3] = some [1, 2, 3, 4, 5] := by decide
example : mergesort ([] : List ℤ) = none := by decide

/-- Sortedness with respect to a Boolean comparison. -/
def SortedLe {α : Type} (le : α → α → Bool) (l : List α) : Prop :=
  List.Pairwise (fun x y => le x y = true) l

theorem mergeByFuel_sorted {α : Type} (le : α → α → Bool)
    (htot : ∀ x y, le x y = true ∨ le y x = true)
    (htrans : ∀ x y z, le x y = true → le y z = true → le x z = true) :
    ∀ (fuel : ℕ) (a b : List α), a.length + b.length ≤ fuel →
      SortedLe le a → SortedLe le b →
      SortedLe le (mergeByFuel le fuel a b) := by
  intro fuel
  induction fuel with
  | zero =>
      intro a b hfuel ha hb
      match a, b with
      | [], [] => exact List.Pairwise.nil
      | [], _ :: _ => simp at hfuel
      | _ :: _, _ => simp at hfuel
  | succ n ih =>
      intro a b hfuel ha hb
      match a, b with
      | [], b => simpa [mergeByFuel] using hb
      | x :: xs, [] => simpa [mergeByFuel] using ha
      | x :: xs, y :: ys =>
          have hfuel' : xs.length + (y :: ys).length ≤ n := by
            simp only [List.length_cons] at hfuel ⊢; omega
          have hfuel'' : (x :: xs).length + ys.length ≤ n := by
            simp only [List.length_cons] at hfuel ⊢; omega
          rw [SortedLe, List.pairwise_cons] at ha hb
          simp only [mergeByFuel]
          by_cases h : le x y = true
          · rw [if_pos h]
            rw [SortedLe, List.pairwise_cons]
            constructor
            · intro z hz
              have hz' : z ∈ xs ++ (y :: ys) :=
                (mergeByFuel_perm le n xs (y :: ys)).mem_iff.mp hz
              rcases List.mem_append.mp hz' with hzx | hzy
              · exact ha.1 z hzx
              · rcases List.mem_cons.mp hzy with rfl | hzys
                · exact h
                · exact htrans x y z h (hb.1 z hzys)
            · exact ih xs (y :: ys) hfuel' ha.2 (List.pairwise_cons.mpr hb)
          · have hyx : le y x = true := (htot x y).resolve_left h
            rw [if_neg h]
            rw [SortedLe, List.pairwise_cons]
            constructor
            · intro z hz
              have hz' : z ∈ (x :: xs) ++ ys :=
                (mergeByFuel_perm le n (x :: xs) ys).mem_iff.mp hz
              rcases List.mem_append.mp hz' with hzx | hzys
              · rcases List.mem_cons.mp hzx with rfl | hzxs
                · exact hyx
                · exact htrans y x z hyx (ha.1 z hzxs)
              · exact hb.1 z hzys
            · exact ih (x :: xs) ys hfuel'' (List.pairwise_cons.mpr ha) hb.2

theorem sortedLe_iff_sorted {α : Type} [LinearOrder α] (l : List α) :
    SortedLe (fun x y : α => decide (x ≤ y)) l ↔ List.Sorted (· ≤ ·) l := by
  constructor
  · intro h; exact h.imp (fun hxy => by simpa using hxy)
  · intro h; exact h.imp (fun hxy => by simpa using hxy)

theorem merge_sorted {α : Type} [LinearOrder α] (a b : List α)
    (ha : List.Sorted (· ≤ ·) a) (hb : List.Sorted (· ≤ ·) b) :
    List.Sorted (· ≤ ·) (merge a b) := by
  rw [← sortedLe_iff_sorted]
  exact mergeByFuel_sorted _
    (fun x y => by by_cases h : x ≤ y <;> simp [h, le_of_not_le])
    (fun x y z hxy hyz => by
      simp only [decide_eq_true_eq] at hxy hyz ⊢; exact le_trans hxy hyz)
    _ a b le_rfl ((sortedLe_iff_sorted a).mpr ha) ((sortedLe_iff_sorted b).mpr hb)

theorem merge_perm {α : Type} [LinearOrder α] (a b : List α) :
    List.Perm (merge a b) (a ++ b) :=
  mergeByFuel_perm _ _ a b

theorem mergesortFuel_correct {α : Type} [LinearOrder α] :
    ∀ (fuel : ℕ) (l : List α), 1 ≤ l.length → l.length ≤ fuel →
      ∃ s, mergesortFuel fuel l = some s ∧ List.Perm s l ∧ List.Sorted (· ≤ ·) s := by
  intro fuel
  induction fuel with
  | zero => intro l h1 h2; omega
  | succ n ih =>
      intro l h1 h2
      by_cases hlen : l.length = 1
      · refine ⟨l, ?_, List.Perm.refl l, ?_⟩
        · simp [mergesortFuel, hlen]
        · match l, hlen with
          | [x], _ => exact List.sorted_singleton x
      · have hlen2 : 2 ≤ l.length := by omega
        have hta : 1 ≤ (l.take (l.length / 2)).length := by
          simp only [List.length_take]; omega
        have htb : (l.take (l.length / 2)).length ≤ n := by
          simp only [List.length_take]; omega
        have hda : 1 ≤ (l.drop (l.length / 2)).length := by
          simp only [List.length_drop]; omega
        have hdb : (l.drop (l.length / 2)).length ≤ n := by
          simp only [List.length_drop]; omega
        obtain ⟨sa, hsa, hpa, hsorta⟩ := ih (l.take (l.length / 2)) hta htb
        obtain ⟨sb, hsb, hpb, hsortb⟩ := ih (l.drop (l.length / 2)) hda hdb
        refine ⟨merge sa sb, ?_, ?_, merge_sorted sa sb hsorta hsortb⟩
        · simp [mergesortFuel, hlen, hsa, hsb]
        · refine (merge_perm sa sb).trans ?_
          refine (hpa.append hpb).trans ?_
          rw [List.take_append_drop]

/-- Claim C4: for every sequence of at least one totally-ordered element,
mergesort returns a sequence that is a permutation of the input and whose
elements are in non-decreasing order. -/
theorem mergesort_is_sorted_permutation {α : Type} [LinearOrder α]
    (l : List α) (h : 1 ≤ l.length) :
    ∃ s, mergesort l = some s ∧ List.Perm s l ∧ List.Sorted (· ≤ ·) s :=
  mergesortFuel_correct l.length l h le_rfl

/-- Witness for C4 at the concrete input from the repository tests. -/
theorem mergesort_is_sorted_permutation_witness :
    ∃ s, mergesort [(4 : ℤ), 1, 2, 5, 3] = some s ∧
      List.Perm s [(4 : ℤ), 1, 2, 5, 3] ∧ List.Sorted (· ≤ ·) s :=
  mergesort_is_sorted_permutation [(4 : ℤ), 1, 2, 5, 3] (by decide)

theorem merge_nil_right {α : Type} [LinearOrder α] (a : List α) :
    merge a [] = a := by
  cases a <;> rfl

theorem merge_nil_left {α : Type} [LinearOrder α] (b : List α) :
    merge [] b = b := by
  cases b <;> rfl

/-- Claim C5: for every pair of sorted lists `a` and `b`, `merge a b` is sorted
and is exactly the multiset union of `a` and `b` (a permutation of
`a ++ b`); moreover `merge a [] = a` and `merge [] b = b`. -/
theorem merge_of_sorted_spec {α : Type} [LinearOrder α] (a b : List α)
    (ha : List.Sorted (· ≤ ·) a) (hb : List.Sorted (· ≤ ·) b) :
    List.Sorted (· ≤ ·) (merge a b) ∧ List.Perm (merge a b) (a ++ b) ∧
      (merge a b : Multiset α) = (a : Multiset α) + (b : Multiset α) ∧
      merge a [] = a ∧ merge [] b = b := by
  refine ⟨merge_sorted a b ha hb, merge_perm a b, ?_, merge_nil_right a, merge_nil_left b⟩
  have := merge_perm a b
  calc (merge a b : Multiset α) = ((a ++ b : List α) : Multiset α) :=
        Quot.sound this
    _ = (a : Multiset α) + (b : Multiset α) := by
        simp [Multiset.coe_add]

/-- Witness for C5 at concrete sorted inputs. -/
theorem merge_of_sorted_spec_witness :
    List.Sorted (· ≤ ·) (merge [(1 : ℤ), 3] [2, 3]) ∧
      List.Perm (merge [(1 : ℤ), 3] [2, 3]) ([(1 : ℤ), 3] ++ [2, 3]) ∧
      (merge [(1 : ℤ), 3] [2, 3] : Multiset ℤ) =
        ([(1 : ℤ), 3] : Multiset ℤ) + ([(2 : ℤ), 3] : Multiset ℤ) ∧
      merge [(1 : ℤ), 3] [] = [(1 : ℤ), 3] ∧ merge [] [(2 : ℤ), 3] = [(2 : ℤ), 3] :=
  merge_of_sorted_spec [(1 : ℤ), 3] [2, 3]
    (by simp [List.sorted_cons]) (by simp [List.sorted_cons])

/-- Claim C9: mergesort applied to the empty list never terminates: the empty
input fails the length-1 test, splits into two empty halves and recurses
with an identical argument, so every fuel bound is exhausted and the
fuel-based embedding returns `none` for all fuel values.  For inputs of
length at least 1 (the stated precondition), fuel equal to the length
always suffices, so the recursion is well-founded exactly under that
precondition. -/
theorem mergesort_empty_diverges :
    (∀ fuel : ℕ, mergesortFuel fuel ([] : List ℤ) = none) ∧
      mergesort ([] : List ℤ) = none ∧
      (∀ (fuel : ℕ) (l : List ℤ), 1 ≤ l.length → l.length ≤ fuel →
        (mergesortFuel fuel l).isSome = true) := by
  have hempty : ∀ fuel : ℕ, mergesortFuel fuel ([] : List ℤ) = none := by
    intro fuel
    induction fuel with
    | zero => rfl
    | succ n ih => simp [mergesortFuel, ih]
  refine ⟨hempty, hempty 0, ?_⟩
  intro fuel l h1 h2
  obtain ⟨s, hs, -, -⟩ := mergesortFuel_correct fuel l h1 h2
  simp [hs]

/-- Witness for C9: the divergence fact at fuel 5 together with a
terminating run on a singleton. -/
theorem mergesort_empty_diverges_witness :
    mergesortFuel 5 ([] : List ℤ) = none ∧
      (mergesortFuel 1 [(3 : ℤ)]).isSome = true :=
  ⟨mergesort_empty_diverges.1 5,
   mergesort_empty_diverges.2.2 1 [(3 : ℤ)] (by decide) (by decide)⟩

end Mergesort

namespace Karatsuba

/-- `_split_int` from karatsuba.py: `a = n >> l` and
`b = ((2 ** l) - 1) & n`. -/
def split_int (n l : ℕ) : ℕ × ℕ :=
  (n >>> l, (2 ^ l - 1) &&& n)

theorem split_int_eq (n l : ℕ) : split_int n l = (n / 2 ^ l, n % 2 ^ l) := by
  unfold split_int
  rw [Nat.shiftRight_eq_div_pow, Nat.and_comm, Nat.and_pow_two_sub_one_eq_mod]

/-- Claim C10: for every non-negative integer `n` and split position `l`,
`split_int n l = (a, b)` satisfies `n = a * 2 ^ l + b` and `b < 2 ^ l`
(non-negativity of `b` is inherent in the type); this reconstruction
identity is what makes the Karatsuba recombination exact. -/
theorem split_int_reconstructs (n l : ℕ) :
    n = (split_int n l).1 * 2 ^ l + (split_int n l).2 ∧
      (split_int n l).2 < 2 ^ l := by
  rw [split_int_eq]
  refine ⟨?_, Nat.mod_lt n (Nat.pos_pow_of_pos l (by norm_num))⟩
  rw [Nat.mul_comm]
  exact (Nat.div_add_mod n (2 ^ l)).symm

theorem size_two_le {x : ℕ} (h0 : Nat.size x ≠ 0) (h1 : Nat.size x ≠ 1) :
    2 ≤ x ∧ 2 ≤ Nat.size x := by
  constructor
  · by_contra h
    have hx : x < 2 ^ 1 := by omega
    have := Nat.size_le.mpr hx
    interval_cases hs : Nat.size x <;> simp_all
  · omega

/-- The three recursive calls of `_karatsuba` strictly decrease `x + y`.
`h` is the split position `half_n = max(x_l, y_l) // 2`. -/
theorem karatsuba_decrease {x y : ℕ} (hx : 2 ≤ x) (hy : 2 ≤ y)
    (hxs : 2 ≤ Nat.size x) (_hys : 2 ≤ Nat.size y) :
    x / 2 ^ (max (Nat.size x) (Nat.size y) / 2) +
        y / 2 ^ (max (Nat.size x) (Nat.size y) / 2) < x + y ∧
      x % 2 ^ (max (Nat.size x) (Nat.size y) / 2) +
        y % 2 ^ (max (Nat.size x) (Nat.size y) / 2) < x + y ∧
      (x / 2 ^ (max (Nat.size x) (Nat.size y) / 2) +
          x % 2 ^ (max (Nat.size x) (Nat.size y) / 2)) +
        (y / 2 ^ (max (Nat.size x) (Nat.size y) / 2) +
          y % 2 ^ (max (Nat.size x) (Nat.size y) / 2)) < x + y := by
  set n := max (Nat.size x) (Nat.size y) with hn
  set h := n / 2 with hh
  have hn2 : 2 ≤ n := le_max_iff.mpr (Or.inl hxs)
  have hhn : h < n := by omega
  have hpow1 : 1 < 2 ^ h := by
    have : (0 : ℕ) < h ∨ h = 0 := by omega
    rcases this with hp | hp
    · exact Nat.one_lt_two_pow (by omega)
    · omega
  -- at least one operand has size n, hence is at least 2 ^ h
  have hbig : 2 ^ h ≤ x ∨ 2 ^ h ≤ y := by
    rcases max_choice (Nat.size x) (Nat.size y) with hc | hc
    · left
      have : h < Nat.size x := by omega
      exact Nat.lt_size.mp this
    · right
      have : h < Nat.size y := by omega
      exact Nat.lt_size.mp this
  have hdx : x / 2 ^ h < x := Nat.div_lt_self (by omega) hpow1
  have hdy : y / 2 ^ h < y := Nat.div_lt_self (by omega) hpow1
  have hmx : x % 2 ^ h ≤ x := Nat.mod_le x _
  have hmy : y % 2 ^ h ≤ y := Nat.mod_le y _
  have hmlt : x % 2 ^ h < 2 ^ h := Nat.mod_lt x (by omega)
  have hmlty : y % 2 ^ h < 2 ^ h := Nat.mod_lt y (by omega)
  have hxdm : x = 2 ^ h * (x / 2 ^ h) + x % 2 ^ h := (Nat.div_add_mod x (2 ^ h)).symm
  have hydm : y = 2 ^ h * (y / 2 ^ h) + y % 2 ^ h := (Nat.div_add_mod y (2 ^ h)).symm
  refine ⟨by omega, ?_, ?_⟩
  · -- b + d < x + y: the operand of full size n is at least 2 ^ h > its remainder
    rcases hbig with hbx | hby <;> omega
  · -- (a + b) + (c + d) < x + y: a + b ≤ x with equality only when a = 0,
    -- and similarly for y, but a and c cannot both be 0
    have hax : x / 2 ^ h + x % 2 ^ h ≤ x := by
      have : x / 2 ^ h ≤ 2 ^ h * (x / 2 ^ h) :=
        Nat.le_mul_of_pos_left (x / 2 ^ h) (by omega)
      omega
    have hay : y / 2 ^ h + y % 2 ^ h ≤ y := by
      have : y / 2 ^ h ≤ 2 ^ h * (y / 2 ^ h) :=
        Nat.le_mul_of_pos_left (y / 2 ^ h) (by omega)
      omega
    rcases hbig with hbx | hby
    · have hxa : 1 ≤ x / 2 ^ h := (Nat.one_le_div_iff (by omega)).mpr hbx
      have : x / 2 ^ h + x % 2 ^ h < x := by
        have h2 : 2 * (x / 2 ^ h) ≤ 2 ^ h * (x / 2 ^ h) :=
          Nat.mul_le_mul_right _ (by omega)
        omega
      omega
    · have hya : 1 ≤ y / 2 ^ h := (Nat.one_le_div_iff (by omega)).mpr hby
      have : y / 2 ^ h + y % 2 ^ h < y := by
        have h2 : 2 * (y / 2 ^ h) ≤ 2 ^ h * (y / 2 ^ h) :=
          Nat.mul_le_mul_right _ (by omega)
        omega
      omega

/-- `_karatsuba` from karatsuba.py.  Values are produced in `ℤ` because the
intermediate `zz = _karatsuba(a+b, c+d) - ac - bd` is a Python subtraction;
the shifts `<<` are multiplications by powers of two. -/
def karatsubaAux (x y : ℕ) : ℤ :=
  if Nat.size x = 0 ∨ Nat.size y = 0 then 0
  else if Nat.size x = 1 then (y : ℤ)
  else if Nat.size y = 1 then (x : ℤ)
  else
    let n := max (Nat.size x) (Nat.size y)
    let half_n := n / 2
    let a := (split_int x half_n).1
    let b := (split_int x half_n).2
    let c := (split_int y half_n).1
    let d := (split_int y half_n).2
    let ac := karatsubaAux a c
    let bd := karatsubaAux b d
    let zz := karatsubaAux (a + b) (c + d) - ac - bd
    ac * 2 ^ (half_n * 2) + zz * 2 ^ half_n + bd
  termination_by x + y
  decreasing_by
  · have hs := size_two_le (x := x) (by tauto) (by assumption)
    have hs' := size_two_le (x := y) (by tauto) (by assumption)
    have := (karatsuba_decrease hs.1 hs'.1 hs.2 hs'.2).1
    simp only [split_int_eq]
    omega
  · have hs := size_two_le (x := x) (by tauto) (by assumption)
    have hs' := size_two_le (x := y) (by tauto) (by assumption)
    have := (karatsuba_decrease hs.1 hs'.1 hs.2 hs'.2).2.1
    simp only [split_int_eq]
    omega
  · have hs := size_two_le (x := x) (by tauto) (by assumption)
    have hs' := size_two_le (x := y) (by tauto) (by assumption)
    have := (karatsuba_decrease hs.1 hs'.1 hs.2 hs'.2).2.2
    simp only [split_int_eq]
    omega

/-- `karatsuba` from karatsuba.py: the wrapper asserts non-negativity and
integrality, both inherent in the `ℕ` arguments. -/
def karatsuba (x y : ℕ) : ℤ := karatsubaAux x y

theorem size_eq_one_iff {n : ℕ} : Nat.size n = 1 ↔ n = 1 := by
  constructor
  · intro h
    have h2 : n < 2 ^ 1 := Nat.size_le.mp (by omega)
    have h0 : n ≠ 0 := by
      intro hv; rw [hv] at h; simp [Nat.size_zero] at h
    omega
  · intro h; subst h; exact Nat.size_one

theorem karatsubaAux_correct : ∀ (m x y : ℕ), x + y ≤ m →
    karatsubaAux x y = (x : ℤ) * (y : ℤ) := by
  intro m
  induction m with
  | zero =>
      intro x y hm
      have hx : x = 0 := by omega
      have hy : y = 0 := by omega
      subst hx; subst hy
      rw [karatsubaAux]
      simp
  | succ k ih =>
      intro x y hm
      rw [karatsubaAux]
      by_cases h0 : Nat.size x = 0 ∨ Nat.size y = 0
      · rw [if_pos h0]
        rcases h0 with h | h <;>
          simp [Nat.size_eq_zero.mp h]
      · rw [if_neg h0]
        by_cases hx1 : Nat.size x = 1
        · rw [if_pos hx1, size_eq_one_iff.mp hx1]; simp
        · rw [if_neg hx1]
          by_cases hy1 : Nat.size y = 1
          · rw [if_pos hy1, size_eq_one_iff.mp hy1]; simp
          · rw [if_neg hy1]
            have hs := size_two_le (x := x) (by tauto) hx1
            have hs' := size_two_le (x := y) (by tauto) hy1
            have hdec := karatsuba_decrease hs.1 hs'.1 hs.2 hs'.2
            simp only [split_int_eq]
            set h := max (Nat.size x) (Nat.size y) / 2 with hh
            have e1 : karatsubaAux (x / 2 ^ h) (y / 2 ^ h) =
                ((x / 2 ^ h : ℕ) : ℤ) * ((y / 2 ^ h : ℕ) : ℤ) :=
              ih _ _ (by omega)
            have e2 : karatsubaAux (x % 2 ^ h) (y % 2 ^ h) =
                ((x % 2 ^ h : ℕ) : ℤ) * ((y % 2 ^ h : ℕ) : ℤ) :=
              ih _ _ (by omega)
            have e3 : karatsubaAux (x / 2 ^ h + x % 2 ^ h) (y / 2 ^ h + y % 2 ^ h) =
                ((x / 2 ^ h + x % 2 ^ h : ℕ) : ℤ) * ((y / 2 ^ h + y % 2 ^ h : ℕ) : ℤ) :=
              ih _ _ (by omega)
            simp only [e1, e2, e3]
            have hxdm : ((x : ℤ)) = ((x / 2 ^ h : ℕ) : ℤ) * (2 : ℤ) ^ h + ((x % 2 ^ h : ℕ) : ℤ) := by
              exact_mod_cast (Nat.div_add_mod' x (2 ^ h)).symm
            have hydm : ((y : ℤ)) = ((y / 2 ^ h : ℕ) : ℤ) * (2 : ℤ) ^ h + ((y % 2 ^ h : ℕ) : ℤ) := by
              exact_mod_cast (Nat.div_add_mod' y (2 ^ h)).symm
            rw [hxdm, hydm]
            push_cast
            rw [pow_mul]
            ring

/-- Claim C3: for all non-negative integers `x` and `y`, `karatsuba x y` equals
the reference product `x * y`; in particular `karatsuba x 0 = 0` and
`karatsuba x 1 = x`. -/
theorem karatsuba_correct (x y : ℕ) :
    karatsuba x y = (x : ℤ) * (y : ℤ) ∧ karatsuba x 0 = 0 ∧
      karatsuba x 1 = (x : ℤ) := by
  refine ⟨karatsubaAux_correct (x + y) x y le_rfl, ?_, ?_⟩
  · rw [karatsuba, karatsubaAux_correct (x + 0) x 0 le_rfl]; simp
  · rw [karatsuba, karatsubaAux_correct (x + 1) x 1 le_rfl]; simp

end Karatsuba

namespace Strassen

/-- Matrices are embedded as total functions `ℕ → ℕ → ℤ`; a side length
accompanies every operation, and entries outside it are irrelevant
(numpy slicing becomes index arithmetic).  Cells are exact integers: this
is an idealization of the source, whose numpy arrays carry int64 entries
(which wrap on overflow) and whose assembly buffer is float64 (which
rounds integers beyond 53 significant bits).  The exact model therefore
computes the value the source's recombination produces BEFORE the lossy
store into the float64 buffer; the divergence between the two on large
entries is exhibited concretely below
(`strassen_exact_cell_not_float64_representable`). -/
def Mat : Type := ℕ → ℕ → ℤ

/-- Pointwise matrix addition (numpy `+` on equal-shape arrays). -/
def matAdd (X Y : Mat) : Mat := fun i j => X i j + Y i j

/-- Pointwise matrix subtraction (numpy `-`). -/
def matSub (X Y : Mat) : Mat := fun i j => X i j - Y i j

/-- Sum of `f 0 + f 1 + ... + f (n-1)`: the inner loop of the naive
triple-loop matrix product. -/
def sumRange (f : ℕ → ℤ) : ℕ → ℤ
  | 0 => 0
  | n + 1 => sumRange f n + f n

/-- The naive triple-loop product of two `n × n` matrices. -/
def matMul (n : ℕ) (A B : Mat) : Mat :=
  fun i j => sumRange (fun k => A i k * B k j) n

/-- `_quadrants(X)` top-left block `X[:k,:k]`. -/
def quadTL (X : Mat) : Mat := fun i j => X i j

/-- `_quadrants(X)` top-right block `X[:k,k:]`. -/
def quadTR (X : Mat) (k : ℕ) : Mat := fun i j => X i (k + j)

/-- `_quadrants(X)` bottom-left block `X[k:,:k]`. -/
def quadBL (X : Mat) (k : ℕ) : Mat := fun i j => X (k + i) j

/-- `_quadrants(X)` bottom-right block `X[k:,k:]`. -/
def quadBR (X : Mat) (k : ℕ) : Mat := fun i j => X (k + i) (k + j)

/-- Reassembling an `n × n` result from four `k × k` quadrants, where
`n = 2 * k`: the four slice assignments into `np.zeros((n, n))`. -/
def assemble (k : ℕ) (TL TR BL BR : Mat) : Mat :=
  fun i j =>
    if i < k then
      if j < k then TL i j else TR i (j - k)
    else
      if j < k then BL (i - k) j else BR (i - k) (j - k)

/-- `_strassen` from strassen.py.  The recursion is on the exponent: the
wrapper always calls it on matrices whose (padded) side length is
`2 ^ m`, and each recursive call halves the side.  Base case `2 ^ 0 = 1`
returns the 1×1 product `[[A[0][0] * B[0][0]]]`.  Caveat: the source
assembles each level into `result = np.zeros((n, n))`, a float64 buffer,
so every cell value the recombination computes is subsequently rounded to
53 significant bits when stored; this embedding keeps the exact integer
value instead, i.e. it models the arithmetic the source performs up to
(but not including) that lossy store. -/
def strassenPow : ℕ → Mat → Mat → Mat
  | 0, A, B => fun _ _ => A 0 0 * B 0 0
  | m + 1, A, B =>
      let k := 2 ^ m
      let a := quadTL A
      let b := quadTR A k
      let c := quadBL A k
      let d := quadBR A k
      let e := quadTL B
      let f := quadTR B k
      let g := quadBL B k
      let h := quadBR B k
      let p1 := strassenPow m a (matSub f h)
      let p2 := strassenPow m (matAdd a b) h
      let p3 := strassenPow m (matAdd c d) e
      let p4 := strassenPow m d (matSub g e)
      let p5 := strassenPow m (matAdd a d) (matAdd e h)
      let p6 := strassenPow m (matSub b d) (matAdd g h)
      let p7 := strassenPow m (matSub a c) (matAdd e f)
      assemble k
        (matAdd (matSub (matAdd p5 p4) p2) p6)
        (matAdd p1 p2)
        (matAdd p3 p4)
        (matSub (matSub (matAdd p1 p5) p3) p7)

/-- `_pad(X, n_new)`: the original `n × n` contents with zero entries
outside; the padded side length is implicit in the function domain. -/
def pad (n : ℕ) (X : Mat) : Mat :=
  fun i j => if i < n ∧ j < n then X i j else 0

/-- The final slice `[:n_orig, :n_orig]` of the padded result. -/
def truncate (n : ℕ) (X : Mat) : Mat :=
  fun i j => if i < n ∧ j < n then X i j else 0

/-- `math.ceil(math.log2 n)` for positive `n`, via the recurrence
ceil(log2 n) = ceil(log2 (ceil (n / 2))) + 1, embedded with fuel. -/
def ceilLog2Aux : ℕ → ℕ → ℕ
  | 0, _ => 0
  | fuel + 1, n => if n ≤ 1 then 0 else ceilLog2Aux fuel ((n + 1) / 2) + 1

def ceilLog2 (n : ℕ) : ℕ := ceilLog2Aux n n

/-- An input array: a shape (list of dimension sizes, so `ndim` is its
length) together with entry contents, meaningful when `ndim = 2`. -/
structure NDArray where
  shape : List ℕ
  entry : Mat

/-- numpy `len(X)`: the first dimension. -/
def npLen (X : NDArray) : ℕ := X.shape.headD 0

/-- `_assert_is_square_matrix` from strassen.py: `X.ndim == 2` means the
shape has exactly two dimensions `[height, width]`, which must agree. -/
def assertSquare (X : NDArray) : Except String Unit :=
  match X.shape with
  | [height, width] =>
      if height ≠ width then Except.error "Inputs must be square" else Except.ok ()
  | _ => Except.error "Inputs must be matrices"

/-- `strassen` from strassen.py: precondition checks, zero padding up to
the next power of two, recursion, truncation back to the original side
length.  `math.log2(0)` raises a ValueError in Python, embedded as the
"math domain error" case. -/
def strassen (A B : NDArray) : Except String NDArray :=
  match assertSquare A with
  | Except.error e => Except.error e
  | Except.ok _ =>
    match assertSquare B with
    | Except.error e => Except.error e
    | Except.ok _ =>
      if npLen A ≠ npLen B then Except.error "Inputs must be of the same dimension"
      else if npLen A = 0 then Except.error "math domain error"
      else
        let nOrig := npLen A
        let m := ceilLog2 nOrig
        Except.ok
          { shape := [nOrig, nOrig],
            entry := truncate nOrig
              (strassenPow m (pad nOrig A.entry) (pad nOrig B.entry)) }

theorem matAdd_apply (X Y : Mat) (i j : ℕ) : matAdd X Y i j = X i j + Y i j := rfl

theorem matSub_apply (X Y : Mat) (i j : ℕ) : matSub X Y i j = X i j - Y i j := rfl

theorem matMul_apply (n : ℕ) (A B : Mat) (i j : ℕ) :
    matMul n A B i j = sumRange (fun k => A i k * B k j) n := rfl

theorem sumRange_add (f g : ℕ → ℤ) (n : ℕ) :
    sumRange f n + sumRange g n = sumRange (fun k => f k + g k) n := by
  induction n with
  | zero => simp [sumRange]
  | succ n ih => simp only [sumRange]; rw [← ih]; ring

theorem sumRange_sub (f g : ℕ → ℤ) (n : ℕ) :
    sumRange f n - sumRange g n = sumRange (fun k => f k - g k) n := by
  induction n with
  | zero => simp [sumRange]
  | succ n ih => simp only [sumRange]; rw [← ih]; ring

theorem sumRange_split (f : ℕ → ℤ) (a b : ℕ) :
    sumRange f (a + b) = sumRange f a + sumRange (fun k => f (a + k)) b := by
  induction b with
  | zero => simp [sumRange]
  | succ b ih =>
      show sumRange f (a + b) + f (a + b) = _
      rw [ih]
      show _ = sumRange f a + (sumRange (fun k => f (a + k)) b + f (a + b))
      ring

theorem sumRange_congr (f g : ℕ → ℤ) (n : ℕ) (h : ∀ k, k < n → f k = g k) :
    sumRange f n = sumRange g n := by
  induction n with
  | zero => rfl
  | succ n ih =>
      simp only [sumRange]
      rw [ih (fun k hk => h k (by omega)), h n (by omega)]

theorem sumRange_eq_zero (f : ℕ → ℤ) (n : ℕ) (h : ∀ k, k < n → f k = 0) :
    sumRange f n = 0 := by
  induction n with
  | zero => rfl
  | succ n ih =>
      simp only [sumRange]
      rw [ih (fun k hk => h k (by omega)), h n (by omega)]
      ring

/-- The core Strassen induction: on power-of-two sizes, the seven-product
recombination computes the naive product, entry for entry. -/
theorem strassenPow_correct :
    ∀ (m : ℕ) (A B : Mat) (i j : ℕ), i < 2 ^ m → j < 2 ^ m →
      strassenPow m A B i j = matMul (2 ^ m) A B i j := by
  intro m
  induction m with
  | zero =>
      intro A B i j hi hj
      have hi0 : i = 0 := by simpa using hi
      have hj0 : j = 0 := by simpa using hj
      subst hi0; subst hj0
      simp [strassenPow, matMul, sumRange]
  | succ m ih =>
      intro A B i j hi hj
      have hps : (2 : ℕ) ^ (m + 1) = 2 ^ m + 2 ^ m := by rw [pow_succ]; ring
      simp only [strassenPow]
      rw [matMul_apply, hps, sumRange_split]
      by_cases hik : i < 2 ^ m <;> by_cases hjk : j < 2 ^ m
      · -- top-left quadrant: p5 + p4 - p2 + p6
        simp only [assemble, if_pos hik, if_pos hjk]
        rw [matAdd_apply, matSub_apply, matAdd_apply]
        rw [ih (matAdd (quadTL A) (quadBR A (2 ^ m))) (matAdd (quadTL B) (quadBR B (2 ^ m))) i j hik hjk]
        rw [ih (quadBR A (2 ^ m)) (matSub (quadBL B (2 ^ m)) (quadTL B)) i j hik hjk]
        rw [ih (matAdd (quadTL A) (quadTR A (2 ^ m))) (quadBR B (2 ^ m)) i j hik hjk]
        rw [ih (matSub (quadTR A (2 ^ m)) (quadBR A (2 ^ m))) (matAdd (quadBL B (2 ^ m)) (quadBR B (2 ^ m))) i j hik hjk]
        simp only [matMul_apply]
        rw [sumRange_add, sumRange_sub, sumRange_add, sumRange_add]
        apply sumRange_congr
        intro r hr
        simp only [matAdd_apply, matSub_apply, quadTL, quadTR, quadBL, quadBR]
        ring
      · -- top-right quadrant: p1 + p2
        obtain ⟨j', rfl⟩ : ∃ j', j = 2 ^ m + j' := ⟨j - 2 ^ m, by omega⟩
        have hj' : j' < 2 ^ m := by omega
        simp only [assemble, if_pos hik, if_neg hjk, Nat.add_sub_cancel_left]
        rw [matAdd_apply]
        rw [ih (quadTL A) (matSub (quadTR B (2 ^ m)) (quadBR B (2 ^ m))) i j' hik hj']
        rw [ih (matAdd (quadTL A) (quadTR A (2 ^ m))) (quadBR B (2 ^ m)) i j' hik hj']
        simp only [matMul_apply]
        rw [sumRange_add, sumRange_add]
        apply sumRange_congr
        intro r hr
        simp only [matAdd_apply, matSub_apply, quadTL, quadTR, quadBL, quadBR]
        ring
      · -- bottom-left quadrant: p3 + p4
        obtain ⟨i', rfl⟩ : ∃ i', i = 2 ^ m + i' := ⟨i - 2 ^ m, by omega⟩
        have hi' : i' < 2 ^ m := by omega
        simp only [assemble, if_neg hik, if_pos hjk, Nat.add_sub_cancel_left]
        rw [matAdd_apply]
        rw [ih (matAdd (quadBL A (2 ^ m)) (quadBR A (2 ^ m))) (quadTL B) i' j hi' hjk]
        rw [ih (quadBR A (2 ^ m)) (matSub (quadBL B (2 ^ m)) (quadTL B)) i' j hi' hjk]
        simp only [matMul_apply]
        rw [sumRange_add, sumRange_add]
        apply sumRange_congr
        intro r hr
        simp only [matAdd_apply, matSub_apply, quadTL, quadTR, quadBL, quadBR]
        ring
      · -- bottom-right quadrant: p1 + p5 - p3 - p7
        obtain ⟨i', rfl⟩ : ∃ i', i = 2 ^ m + i' := ⟨i - 2 ^ m, by omega⟩
        obtain ⟨j', rfl⟩ : ∃ j', j = 2 ^ m + j' := ⟨j - 2 ^ m, by omega⟩
        have hi' : i' < 2 ^ m := by omega
        have hj' : j' < 2 ^ m := by omega
        simp only [assemble, if_neg hik, if_neg hjk, Nat.add_sub_cancel_left]
        rw [matSub_apply, matSub_apply, matAdd_apply]
        rw [ih (quadTL A) (matSub (quadTR B (2 ^ m)) (quadBR B (2 ^ m))) i' j' hi' hj']
        rw [ih (matAdd (quadTL A) (quadBR A (2 ^ m))) (matAdd (quadTL B) (quadBR B (2 ^ m))) i' j' hi' hj']
        rw [ih (matAdd (quadBL A (2 ^ m)) (quadBR A (2 ^ m))) (quadTL B) i' j' hi' hj']
        rw [ih (matSub (quadTL A) (quadBL A (2 ^ m))) (matAdd (quadTL B) (quadTR B (2 ^ m))) i' j' hi' hj']
        simp only [matMul_apply]
        rw [sumRange_add, sumRange_sub, sumRange_sub, sumRange_add]
        apply sumRange_congr
        intro r hr
        simp only [matAdd_apply, matSub_apply, quadTL, quadTR, quadBL, quadBR]
        ring

theorem matMul_pad (n N : ℕ) (hnN : n ≤ N) (A B : Mat) (i j : ℕ)
    (hi : i < n) (hj : j < n) :
    matMul N (pad n A) (pad n B) i j = matMul n A B i j := by
  rw [matMul_apply, matMul_apply]
  obtain ⟨d, rfl⟩ : ∃ d, N = n + d := ⟨N - n, by omega⟩
  rw [sumRange_split]
  have h2 : sumRange (fun k => pad n A i (n + k) * pad n B (n + k) j) d = 0 := by
    apply sumRange_eq_zero
    intro k hk
    simp only [pad]
    rw [if_neg (by omega)]
    ring
  rw [h2, add_zero]
  apply sumRange_congr
  intro k hk
  simp only [pad]
  rw [if_pos ⟨hi, hk⟩, if_pos ⟨hk, hj⟩]

theorem ceilLog2Aux_le : ∀ (fuel n : ℕ), n ≤ fuel → n ≤ 2 ^ ceilLog2Aux fuel n := by
  intro fuel
  induction fuel with
  | zero => intro n h; simp [ceilLog2Aux]; omega
  | succ f ih =>
      intro n h
      by_cases h1 : n ≤ 1
      · simp only [ceilLog2Aux, if_pos h1]; omega
      · simp only [ceilLog2Aux, if_neg h1]
        have := ih ((n + 1) / 2) (by omega)
        rw [pow_succ]
        omega

theorem ceilLog2_le (n : ℕ) : n ≤ 2 ^ ceilLog2 n := ceilLog2Aux_le n n le_rfl

/-- Supporting lemma (exact-arithmetic idealization): for every pair of
square `n × n` matrices with `n ≥ 1` (whether or not `n` is a power of
two), the Strassen recursion with EXACT integer cells succeeds and every
visible cell of the truncated result equals the naive triple-loop
product, so the padding is never caller-visible.  This is the algebraic
content of strassen.py only: the real program's int64 entries and float64
assembly buffer are idealized as unbounded exact integers here, and the
program itself violates cell-for-cell equality on large entries (see
`strassen_exact_cell_not_float64_representable`). -/
theorem strassen_matches_naive_product (A B : NDArray) (n : ℕ)
    (hA : A.shape = [n, n]) (hB : B.shape = [n, n]) (hn : 1 ≤ n) :
    ∃ C, strassen A B = Except.ok C ∧ C.shape = [n, n] ∧
      ∀ i j, i < n → j < n → C.entry i j = matMul n A.entry B.entry i j := by
  have hokA : assertSquare A = Except.ok () := by
    simp [assertSquare, hA]
  have hokB : assertSquare B = Except.ok () := by
    simp [assertSquare, hB]
  have hnpA : npLen A = n := by simp [npLen, hA]
  have hnpB : npLen B = n := by simp [npLen, hB]
  have hn0 : ¬ (n = 0) := by omega
  have hrun : strassen A B = Except.ok
      { shape := [n, n],
        entry := truncate n
          (strassenPow (ceilLog2 n) (pad n A.entry) (pad n B.entry)) } := by
    simp [strassen, hokA, hokB, hnpA, hnpB, hn0]
  refine ⟨_, hrun, rfl, ?_⟩
  intro i j hi hj
  have hpow := ceilLog2_le n
  show truncate n _ i j = _
  rw [truncate, if_pos ⟨hi, hj⟩]
  rw [strassenPow_correct (ceilLog2 n) _ _ i j (lt_of_lt_of_le hi hpow)
      (lt_of_lt_of_le hj hpow)]
  exact matMul_pad n (2 ^ ceilLog2 n) hpow A.entry B.entry i j hi hj

/-- The 2×2 inputs of strassen.py's `test_2x2_arbitrary`. -/
def exA : NDArray :=
  { shape := [2, 2],
    entry := fun i j =>
      if i = 0 then (if j = 0 then 7 else 11) else (if j = 0 then 14 else 2) }

def exB : NDArray :=
  { shape := [2, 2],
    entry := fun i j =>
      if i = 0 then (if j = 0 then 12 else 2) else (if j = 0 then 19 else 2) }

/-- The supporting lemma evaluated at the repository's 2×2 test matrices
(small entries, where int64 and float64 happen to be exact). -/
theorem strassen_matches_naive_product_witness :
    ∃ C, strassen exA exB = Except.ok C ∧ C.shape = [2, 2] ∧
      ∀ i j, i < 2 → j < 2 → C.entry i j = matMul 2 exA.entry exB.entry i j :=
  strassen_matches_naive_product exA exB 2 rfl rfl (by omega)

/-- The failing input for the exactness claim: 2 × 2 operands whose every
entry is 2^27 + 1 = 134217729 (well inside int64, so no intermediate of
the recursion overflows; only the float64 store loses information). -/
def bigA : NDArray := { shape := [2, 2], entry := fun _ _ => 134217729 }

/-- Claim C2 is refuted by the numeric representation (code bug): on the
2 × 2 input whose every entry is 2^27 + 1, every cell of the naive integer
product is 36028797555834882 = 2 * (2^54 + 2^28 + 1), and this is exactly
the integer that `_strassen`'s recombination computes (all intermediates
fit int64) and assigns into the float64 buffer `np.zeros((n, n))`.  But
every decomposition m * 2^e of that value has m > 2^53, so no IEEE-754
double (53-bit mantissa) equals it: the store must round (numpy keeps
36028797555834880.0), and the returned matrix differs from the naive
product in every cell — contrary to the claim's "exactly, with no
floating rounding for integer matrices".  The claim states the documented
intent ("Calculates the product of two square matrices"); the slip is the
dtype of the assembly buffer. -/
theorem strassen_exact_cell_not_float64_representable :
    (∃ C, strassen bigA bigA = Except.ok C ∧
        ∀ i j, i < 2 → j < 2 → C.entry i j = 36028797555834882) ∧
      matMul 2 bigA.entry bigA.entry 0 0 = 36028797555834882 ∧
      (36028797555834882 : ℤ) = 2 * (2 ^ 54 + 2 ^ 28 + 1) ∧
      (∀ m e : ℕ, 36028797555834882 = m * 2 ^ e → 2 ^ 53 < m) := by
  refine ⟨?_, by decide, by norm_num, ?_⟩
  · obtain ⟨C, hC, hshape, hcells⟩ :=
      strassen_matches_naive_product bigA bigA 2 rfl rfl (by omega)
    refine ⟨C, hC, ?_⟩
    intro i j hi hj
    rw [hcells i j hi hj]
    interval_cases i <;> interval_cases j <;> decide
  · intro m e h
    have h53 : (2 : ℕ) ^ 53 = 9007199254740992 := by norm_num
    rw [h53]
    by_cases he0 : e = 0
    · subst he0; rw [pow_zero, mul_one] at h; omega
    · by_cases he1 : e = 1
      · subst he1; rw [pow_one] at h; omega
      · exfalso
        obtain ⟨k, rfl⟩ : ∃ k, e = k + 2 := ⟨e - 2, by omega⟩
        have h4 : (4 : ℕ) ∣ 36028797555834882 := by
          rw [h, pow_add]
          exact ⟨m * 2 ^ k, by ring⟩
        omega

/-- Witness for the C2 failing input: the naive cell value, and the
failure of 53-bit representability at the finest decomposition
36028797555834882 = 18014398777917441 * 2^1. -/
theorem strassen_exact_cell_not_float64_representable_witness :
    matMul 2 bigA.entry bigA.entry 0 0 = 36028797555834882 ∧
      2 ^ 53 < 18014398777917441 :=
  ⟨strassen_exact_cell_not_float64_representable.2.1,
   strassen_exact_cell_not_float64_representable.2.2.2 18014398777917441 1
     (by norm_num)⟩

/-- True exactly when the array is two-dimensional and square. -/
def isSquare2D (X : NDArray) : Bool :=
  match X.shape with
  | [height, width] => height == width
  | _ => false

/-- The violations named by the input-contract checks of strassen.py:
not two-dimensional, not square, or mismatched side lengths. -/
def shapeViolation (A B : NDArray) : Prop :=
  isSquare2D A = false ∨ isSquare2D B = false ∨ npLen A ≠ npLen B

instance (A B : NDArray) : Decidable (shapeViolation A B) := by
  unfold shapeViolation; infer_instance

theorem assertSquare_ok_iff (X : NDArray) :
    assertSquare X = Except.ok () ↔ isSquare2D X = true := by
  unfold assertSquare isSquare2D
  rcases hs : X.shape with _ | ⟨a, _ | ⟨b, _ | ⟨c, t⟩⟩⟩
  · simp
  · simp
  · by_cases h : a = b <;> simp [h]
  · simp

/-- A 0 × 0 matrix: a two-dimensional, square numpy array. -/
def zeroArr : NDArray := { shape := [0, 0], entry := fun _ _ => 0 }

/-- Claim C8 counterexample: the 0 × 0 input satisfies every checked
precondition (it is two-dimensional, square, and the operands match), yet
`strassen` still fails, because `math.log2(0)` raises a ValueError; so the
error cases are not exactly the three shape violations. -/
theorem strassen_error_not_exactly_shape_violations :
    ¬ shapeViolation zeroArr zeroArr ∧
      strassen zeroArr zeroArr = Except.error "math domain error" := by
  constructor
  · decide
  · rfl

/-- Claim C8 amended: `strassen` produces a result exactly when no shape
violation occurs and the side length is at least 1; every rejection
happens in the precondition checks or in `_next_power_of_two`, before any
recursion, with a descriptive message and no output. -/
theorem strassen_ok_iff (A B : NDArray) :
    (∃ C, strassen A B = Except.ok C) ↔
      (¬ shapeViolation A B ∧ 1 ≤ npLen A) := by
  unfold strassen
  cases hA : assertSquare A with
  | error e =>
      have hA' : ¬ isSquare2D A = true := by
        intro h
        rw [(assertSquare_ok_iff A).mpr h] at hA
        exact Except.noConfusion hA
      simp only [Bool.not_eq_true] at hA'
      simp [shapeViolation, hA']
  | ok u =>
      cases u
      have hA' : isSquare2D A = true := (assertSquare_ok_iff A).mp hA
      cases hB : assertSquare B with
      | error e =>
          have hB' : ¬ isSquare2D B = true := by
            intro h
            rw [(assertSquare_ok_iff B).mpr h] at hB
            exact Except.noConfusion hB
          simp only [Bool.not_eq_true] at hB'
          simp [shapeViolation, hB']
      | ok u =>
          cases u
          have hB' : isSquare2D B = true := (assertSquare_ok_iff B).mp hB
          by_cases h5 : npLen A = npLen B
          · by_cases h6 : npLen A = 0
            · have h6' : npLen B = 0 := h5 ▸ h6
              simp [shapeViolation, hA', hB', h5, h6']
            · have h6' : ¬ npLen B = 0 := fun h => h6 (h5.trans h)
              simp [shapeViolation, hA', hB', h5, h6']
              omega
          · simp [shapeViolation, h5]

/-- Witness for the amended C8: a concrete accepted input and a concrete
rejected (non-square) input. -/
theorem strassen_ok_iff_witness :
    (∃ C, strassen exA exB = Except.ok C) ∧
      ¬ ∃ C, strassen (NDArray.mk [1, 2] (fun _ _ => 0)) exB = Except.ok C := by
  constructor
  · exact (strassen_ok_iff exA exB).mpr (by decide)
  · intro h
    have := (strassen_ok_iff (NDArray.mk [1, 2] (fun _ _ => 0)) exB).mp h
    exact absurd this.1 (by decide)

end Strassen

namespace ClosestPoints

/-- A point is a pair of integer coordinates (the repository's tests use
integer points throughout). -/
abbrev Pt : Type := ℤ × ℤ

/-- `distance` from closestpoints.py: the SQUARED Euclidean distance
`(p[0] - q[0]) ** 2 + (p[1] - q[1]) ** 2`. -/
def distance (p q : Pt) : ℤ :=
  (p.1 - q.1) * (p.1 - q.1) + (p.2 - q.2) * (p.2 - q.2)

/-- Stable insertion of a point into a list sorted by `key`. -/
def insortBy (key : Pt → ℤ) (x : Pt) : List Pt → List Pt
  | [] => [x]
  | y :: ys => if key x ≤ key y then x :: y :: ys else y :: insortBy key x ys

/-- Python's stable `sorted(points, key=...)`. -/
def sortBy (key : Pt → ℤ) (l : List Pt) : List Pt :=
  l.foldr (insortBy key) []

def sortByX (l : List Pt) : List Pt := sortBy (fun p => p.1) l

def sortByY (l : List Pt) : List Pt := sortBy (fun p => p.2) l

/-- `merge` from closestpoints.py: the mergesort merge loop, borrowed from
mergesort.py, comparing duples by their second (y) coordinate. -/
def mergeY (a b : List Pt) : List Pt :=
  Mergesort.mergeByFuel (fun p q : Pt => decide (p.2 ≤ q.2))
    (a.length + b.length) a b

/-- The distance of an optional best pair; `none` is the `math.inf`
sentinel used when a half contains a single point. -/
def viewD (st : Option (Pt × Pt)) : Option ℤ :=
  st.map (fun pq => distance pq.1 pq.2)

/-- `d_left <= d_right` where `none` plays `math.inf`. -/
def leInf : Option ℤ → Option ℤ → Bool
  | none, none => true
  | none, some _ => false
  | some _, none => true
  | some a, some b => decide (a ≤ b)

/-- `d < best_d` where the current best may be the `math.inf` sentinel. -/
def ltInf (d : ℤ) : Option ℤ → Bool
  | none => true
  | some b => decide (d < b)

/-- One comparison of the strip search: replace the best pair when the
candidate is strictly closer, normalizing so the point with smaller x
comes first. -/
def stripUpdate (st : Option (Pt × Pt)) (q1 q2 : Pt) : Option (Pt × Pt) :=
  if ltInf (distance q1 q2) (viewD st) then
    if q1.1 ≤ q2.1 then some (q1, q2) else some (q2, q1)
  else st

/-- The inner loop `for q2 in strip[idx+1:idx+8]`. -/
def windowScan (q1 : Pt) : List Pt → Option (Pt × Pt) → Option (Pt × Pt)
  | [], st => st
  | q2 :: qs, st => windowScan q1 qs (stripUpdate st q1 q2)

/-- The outer loop `for idx, q1 in enumerate(strip)`: each strip point is
compared against only the next up to 7 strip points in y-order. -/
def stripScan : List Pt → Option (Pt × Pt) → Option (Pt × Pt)
  | [], st => st
  | q1 :: rest, st => stripScan rest (windowScan q1 (rest.take 7) st)

/-- `_closest_pair` from closestpoints.py, on an x-sorted list, with fuel
(the list length always suffices, since both halves of a list of length
at least 3 are strictly shorter).  Returns the best pair (or the `None`
sentinel) and the input re-sorted by y. -/
def closestPairAux : ℕ → List Pt → Option (Pt × Pt) × List Pt
  | 0, pts => (none, pts)
  | _ + 1, [p] => (none, [p])
  | _ + 1, [p, q] => (some (p, q), sortByY [p, q])
  | fuel + 1, pts =>
      let mid := pts.length / 2
      let resL := closestPairAux fuel (pts.take mid)
      let resR := closestPairAux fuel (pts.drop mid)
      let best0 := if leInf (viewD resL.1) (viewD resR.1) then resL.1 else resR.1
      let ySorted := mergeY resL.2 resR.2
      let median := (pts.getD mid ((0 : ℤ), (0 : ℤ))).1
      let strip :=
        match viewD best0 with
        | none => ySorted
        | some d => ySorted.filter
            (fun p => decide (median - d ≤ p.1) && decide (p.1 ≤ median + d))
      (stripScan strip best0, ySorted)

/-- `closest_pair` from closestpoints.py: asserts at least two points,
sorts by x, and runs the recursion.  The assertion failure is `none`. -/
def closest_pair (pts : List Pt) : Option (Pt × Pt) :=
  if pts.length < 2 then none
  else (closestPairAux pts.length (sortByX pts)).1

/-- All pairwise squared distances of a list (the brute force of the
repository's `test_random`). -/
def pairDists : List Pt → List ℤ
  | [] => []
  | p :: rest => rest.map (fun q => distance p q) ++ pairDists rest

/-- The minimum of a list of distances, `none` for the empty list. -/
def listMin (l : List ℤ) : Option ℤ :=
  l.foldl (fun acc x =>
    match acc with
    | none => some x
    | some m => some (min m x)) none

-- The embedding reproduces the repository's own unit tests.
example :
    closest_pair [(-4, 76), (37, -15), (59, -4), (94, 88)] =
      some ((37, -15), (59, -4)) := by decide

example :
    closest_pair [(-82, -50), (-64, -53), (-37, 8), (19, -81), (69, -29),
      (91, 80), (98, -76)] = some ((-82, -50), (-64, -53)) := by decide

/-- Nine points with integer coordinates in [-100, 100] (the distribution
of the repository's `test_random`).  The unique closest pair is
`(0, 0), (2, 9)` at squared distance 85, but in the top-level combine the
strip — built with width `best_d` even though `best_d` is a SQUARED
distance — contains all nine points, and `(2, 9)` sits 8 positions after
`(0, 0)` in y-order, outside the 7-point window. -/
def ex9 : List Pt :=
  [(-62, 1), (-42, 2), (-22, 3), (0, 0), (2, 9), (22, 4), (42, 5), (62, 6), (82, 7)]

set_option maxRecDepth 8000

/-- Claim C1 is refuted (code bug): on `ex9` the minimum squared distance over all
pairs is 85, attained only by `(0, 0), (2, 9)`, yet `closest_pair` returns
the pair `(-62, 1), (-42, 2)` at squared distance 401.  The strip is built
with half-width `best_d`, but `best_d` is a squared distance, so the strip
is far wider than the packing argument behind the fixed 7-point window
allows: the true closest pair straddles the two halves 8 positions apart
in y-order and is never compared.  This input lies inside the distribution
of the repository's own `test_random` (2 to 50 points with coordinates in
[-100, 100]), whose brute-force assertion it fails. -/
theorem closest_pair_misses_global_minimum :
    closest_pair ex9 = some ((-62, 1), (-42, 2)) ∧
      distance (-62, 1) (-42, 2) = 401 ∧
      listMin (pairDists ex9) = some 85 ∧
      distance (0, 0) (2, 9) = 85 ∧ (401 : ℤ) ≠ 85 := by
  refine ⟨?_, by decide, ?_, by decide, by decide⟩
  · decide
  · decide

/-- Sorted by y coordinate (the precondition of the two-key merge). -/
def SortedByY (l : List Pt) : Prop :=
  List.Pairwise (fun p q : Pt => p.2 ≤ q.2) l

/-- Sorted by x coordinate (the precondition of `_closest_pair`). -/
def SortedByX (l : List Pt) : Prop :=
  List.Pairwise (fun p q : Pt => p.1 ≤ q.1) l

instance (l : List Pt) : Decidable (SortedByY l) := by
  unfold SortedByY; infer_instance

instance (l : List Pt) : Decidable (SortedByX l) := by
  unfold SortedByX; infer_instance

theorem mergeByFuel_cons_of_le {α : Type} (le : α → α → Bool) (fuel : ℕ)
    (x : α) (xs : List α) (y : α) (ys : List α) (h : le x y = true) :
    Mergesort.mergeByFuel le (fuel + 1) (x :: xs) (y :: ys) =
      x :: Mergesort.mergeByFuel le fuel xs (y :: ys) := by
  simp [Mergesort.mergeByFuel, h]

theorem mergeY_cons_of_eq (p : Pt) (ps : List Pt) (q : Pt) (qs : List Pt)
    (h : p.2 = q.2) :
    mergeY (p :: ps) (q :: qs) = p :: mergeY ps (q :: qs) := by
  have hle : (fun u v : Pt => decide (u.2 ≤ v.2)) p q = true := by
    simp [h]
  have hl : (p :: ps).length + (q :: qs).length =
      (ps.length + (q :: qs).length) + 1 := by
    simp only [List.length_cons]; omega
  rw [mergeY, hl, mergeByFuel_cons_of_le _ _ _ _ _ _ hle]
  rw [mergeY]

theorem mergeYFuel_filter (k : ℤ) :
    ∀ (fuel : ℕ) (a b : List Pt), a.length + b.length ≤ fuel →
      SortedByY a → SortedByY b →
      (Mergesort.mergeByFuel (fun p q : Pt => decide (p.2 ≤ q.2)) fuel a b).filter
          (fun r => decide (r.2 = k)) =
        a.filter (fun r => decide (r.2 = k)) ++
          b.filter (fun r => decide (r.2 = k)) := by
  intro fuel
  induction fuel with
  | zero =>
      intro a b hf ha hb
      match a, b with
      | [], [] => rfl
      | [], _ :: _ => simp at hf
      | _ :: _, _ => simp at hf
  | succ n ih =>
      intro a b hf ha hb
      match a, b with
      | [], b => simp [Mergesort.mergeByFuel]
      | x :: xs, [] => simp [Mergesort.mergeByFuel]
      | x :: xs, y :: ys =>
          have hf1 : xs.length + (y :: ys).length ≤ n := by
            simp only [List.length_cons] at hf ⊢; omega
          have hf2 : (x :: xs).length + ys.length ≤ n := by
            simp only [List.length_cons] at hf ⊢; omega
          rw [SortedByY, List.pairwise_cons] at ha hb
          simp only [Mergesort.mergeByFuel]
          by_cases h : x.2 ≤ y.2
          · rw [if_pos (by simpa using h)]
            rw [List.filter_cons, List.filter_cons]
            rw [ih xs (y :: ys) hf1 ha.2 (List.pairwise_cons.mpr hb)]
            by_cases hx : x.2 = k <;> simp [hx]
          · have hyx : y.2 < x.2 := by omega
            rw [if_neg (by simpa using h)]
            have hrec := ih (x :: xs) ys hf2 (List.pairwise_cons.mpr ha) hb.2
            by_cases hy : y.2 = k
            · have hnil : (x :: xs).filter (fun r => decide (r.2 = k)) = [] := by
                rw [List.filter_eq_nil_iff]
                intro z hz
                have hxz : x.2 ≤ z.2 := by
                  rcases List.mem_cons.mp hz with rfl | hzs
                  · exact le_rfl
                  · exact ha.1 z hzs
                simp only [decide_eq_true_eq]
                omega
              rw [List.filter_cons, if_pos (by simpa using hy), hrec, hnil]
              simp [List.filter_cons, hy]
            · rw [List.filter_cons, if_neg (by simpa using hy), hrec]
              simp [List.filter_cons, hy]

/-- Claim C6: the two-key merge of closestpoints.py is stable: when the heads of
the two y-sorted inputs have equal keys, the head of the first (left)
input is emitted first, and consequently, for every key value, the
elements of the left input with that key all precede the elements of the
right input with that key in the output. -/
theorem mergeY_stable (a b : List Pt) (ha : SortedByY a) (hb : SortedByY b) :
    (∀ (p : Pt) (ps : List Pt) (q : Pt) (qs : List Pt), p.2 = q.2 →
        mergeY (p :: ps) (q :: qs) = p :: mergeY ps (q :: qs)) ∧
      ∀ k : ℤ, (mergeY a b).filter (fun r => decide (r.2 = k)) =
        a.filter (fun r => decide (r.2 = k)) ++
          b.filter (fun r => decide (r.2 = k)) := by
  refine ⟨mergeY_cons_of_eq, ?_⟩
  intro k
  exact mergeYFuel_filter k (a.length + b.length) a b le_rfl ha hb

/-- Witness for C6 at concrete y-sorted inputs with a shared key. -/
theorem mergeY_stable_witness :
    (mergeY [((1 : ℤ), (5 : ℤ)), (2, 7)] [(3, 5), (4, 7)]).filter
        (fun r => decide (r.2 = 5)) =
      ([((1 : ℤ), (5 : ℤ)), (2, 7)].filter (fun r => decide (r.2 = 5))) ++
        ([((3 : ℤ), (5 : ℤ)), (4, 7)].filter (fun r => decide (r.2 = 5))) :=
  (mergeY_stable [((1 : ℤ), (5 : ℤ)), (2, 7)] [(3, 5), (4, 7)]
    (by decide) (by decide)).2 5

theorem mem_insortBy (key : Pt → ℤ) (x z : Pt) :
    ∀ l : List Pt, z ∈ insortBy key x l → z = x ∨ z ∈ l := by
  intro l
  induction l with
  | nil => intro h; simpa [insortBy] using h
  | cons y ys ih =>
      simp only [insortBy]
      by_cases h : key x ≤ key y
      · rw [if_pos h]
        intro hz
        rcases List.mem_cons.mp hz with rfl | hz'
        · exact Or.inl rfl
        · exact Or.inr hz'
      · rw [if_neg h]
        intro hz
        rcases List.mem_cons.mp hz with rfl | hz'
        · exact Or.inr (List.mem_cons_self _ _)
        · rcases ih hz' with h1 | h1
          · exact Or.inl h1
          · exact Or.inr (List.mem_cons_of_mem _ h1)

theorem insortBy_pairwise (key : Pt → ℤ) (x : Pt) :
    ∀ l : List Pt, List.Pairwise (fun p q => key p ≤ key q) l →
      List.Pairwise (fun p q => key p ≤ key q) (insortBy key x l) := by
  intro l
  induction l with
  | nil => intro h; simp [insortBy]
  | cons y ys ih =>
      intro h
      rw [List.pairwise_cons] at h
      simp only [insortBy]
      by_cases hxy : key x ≤ key y
      · rw [if_pos hxy]
        rw [List.pairwise_cons]
        refine ⟨?_, List.pairwise_cons.mpr h⟩
        intro z hz
        rcases List.mem_cons.mp hz with rfl | hz'
        · exact hxy
        · exact le_trans hxy (h.1 z hz')
      · rw [if_neg hxy]
        rw [List.pairwise_cons]
        refine ⟨?_, ih h.2⟩
        intro z hz
        rcases mem_insortBy key x z ys hz with rfl | hz'
        · omega
        · exact h.1 z hz'

theorem sortBy_pairwise (key : Pt → ℤ) (l : List Pt) :
    List.Pairwise (fun p q => key p ≤ key q) (sortBy key l) := by
  induction l with
  | nil => simp [sortBy]
  | cons x xs ih => exact insortBy_pairwise key x _ ih

/-- The invariant that the best pair is returned leftmost-point first. -/
def PairOrdered (st : Option (Pt × Pt)) : Prop :=
  ∀ p q : Pt, st = some (p, q) → p.1 ≤ q.1

theorem stripUpdate_pairOrdered (st : Option (Pt × Pt)) (q1 q2 : Pt)
    (h : PairOrdered st) : PairOrdered (stripUpdate st q1 q2) := by
  unfold stripUpdate
  by_cases hlt : ltInf (distance q1 q2) (viewD st) = true
  · rw [if_pos hlt]
    by_cases hq : q1.1 ≤ q2.1
    · rw [if_pos hq]
      intro p q hpq
      injection hpq with hpq'
      injection hpq' with h1 h2
      subst h1; subst h2
      exact hq
    · rw [if_neg hq]
      intro p q hpq
      injection hpq with hpq'
      injection hpq' with h1 h2
      subst h1; subst h2
      omega
  · rw [if_neg hlt]
    exact h

theorem windowScan_pairOrdered (q1 : Pt) :
    ∀ (l : List Pt) (st : Option (Pt × Pt)), PairOrdered st →
      PairOrdered (windowScan q1 l st) := by
  intro l
  induction l with
  | nil => intro st h; simpa [windowScan] using h
  | cons q2 qs ih =>
      intro st h
      simp only [windowScan]
      exact ih _ (stripUpdate_pairOrdered st q1 q2 h)

theorem stripScan_pairOrdered :
    ∀ (l : List Pt) (st : Option (Pt × Pt)), PairOrdered st →
      PairOrdered (stripScan l st) := by
  intro l
  induction l with
  | nil => intro st h; simpa [stripScan] using h
  | cons q1 rest ih =>
      intro st h
      simp only [stripScan]
      exact ih _ (windowScan_pairOrdered q1 _ st h)

theorem closestPairAux_pairOrdered :
    ∀ (fuel : ℕ) (pts : List Pt), SortedByX pts →
      PairOrdered (closestPairAux fuel pts).1 := by
  intro fuel
  induction fuel with
  | zero =>
      intro pts hs p q hpq
      simp [closestPairAux] at hpq
  | succ n ih =>
      intro pts hs
      match pts with
      | [] =>
          simp only [closestPairAux]
          apply stripScan_pairOrdered
          split
          · exact ih _ (List.Pairwise.sublist (List.take_sublist _ _) hs)
          · exact ih _ (List.Pairwise.sublist (List.drop_sublist _ _) hs)
      | [p] =>
          intro u v huv
          simp [closestPairAux] at huv
      | [p, q] =>
          intro u v huv
          simp only [closestPairAux] at huv
          injection huv with huv'
          injection huv' with h1 h2
          subst h1; subst h2
          rw [SortedByX, List.pairwise_cons] at hs
          exact hs.1 q (List.mem_cons_self q [])
      | p :: q :: r :: rest =>
          simp only [closestPairAux]
          apply stripScan_pairOrdered
          split
          · exact ih _ (List.Pairwise.sublist (List.take_sublist _ _) hs)
          · exact ih _ (List.Pairwise.sublist (List.drop_sublist _ _) hs)

theorem sortByX_sorted (l : List Pt) : SortedByX (sortByX l) :=
  sortBy_pairwise (fun p => p.1) l

/-- Claim C7: for every valid input (at least two points), the pair returned by
`closest_pair` is normalized so that the point with the smaller (or equal)
x coordinate comes first; and a strip candidate replaces the current best
pair only when its distance is strictly smaller (when the comparison
fails the state is unchanged). -/
theorem closest_pair_normalized :
    (∀ (pts : List Pt) (p q : Pt), 2 ≤ pts.length →
        closest_pair pts = some (p, q) → p.1 ≤ q.1) ∧
      (∀ (st : Option (Pt × Pt)) (q1 q2 : Pt),
        ltInf (distance q1 q2) (viewD st) = false →
        stripUpdate st q1 q2 = st) := by
  constructor
  · intro pts p q h2 hres
    unfold closest_pair at hres
    rw [if_neg (by omega)] at hres
    exact closestPairAux_pairOrdered _ _ (sortByX_sorted pts) p q hres
  · intro st q1 q2 h
    unfold stripUpdate
    rw [if_neg (by simp [h])]

/-- Witness for C7 at the repository's 4-point test. -/
theorem closest_pair_normalized_witness :
    closest_pair [(-4, 76), (37, -15), (59, -4), (94, 88)] =
        some ((37, -15), (59, -4)) ∧ ((37 : ℤ) ≤ 59) :=
  ⟨by decide,
   closest_pair_normalized.1 [(-4, 76), (37, -15), (59, -4), (94, 88)]
     (37, -15) (59, -4) (by decide) (by decide)⟩

end ClosestPoints
